import Mathlib

/-!
Shallow embedding of `src/main.py` of the `line_talk_graph` repository:
the analysis pipeline of `LineTalkAnalyzer` (file ingestion with encoding
fallback, line counting, ranking by count, and comma-separated label
exclusion for the chart).  Python strings are modelled as `List Char`.
-/

namespace LineTalk

/-- Python strings, modelled as lists of characters. -/
abbrev PyStr := List Char

/-- Characters removed by Python `str.strip()` with no argument
(the ASCII whitespace characters relevant to this program). -/
def pyIsSpace (c : Char) : Bool :=
  c = ' ' || c = '\t' || c = '\n' || c = '\r' || c = '\x0b' || c = '\x0c'

/-- Python `s.strip()`: remove leading and trailing whitespace. -/
def pyStrip (s : PyStr) : PyStr :=
  (s.dropWhile pyIsSpace).rdropWhile pyIsSpace

/-- Python `s.split(",")`: split on every comma, keeping empty pieces.
Always returns at least one piece. -/
def splitComma : PyStr → List PyStr
  | [] => [[]]
  | c :: rest =>
    if c = ',' then [] :: splitComma rest
    else
      match splitComma rest with
      | [] => [[c]]
      | p :: ps => (c :: p) :: ps

/-- Line 148 of `main.py`:
`exclude_names = [name.strip() for name in exclude_text.split(",") if name.strip()] if exclude_text else []`
where `exclude_text = self.exclude_input.text().strip()` (line 147). -/
def exclude_names (raw : PyStr) : List PyStr :=
  let t := pyStrip raw
  if t = [] then []
  else ((splitComma t).map pyStrip).filter (fun x => x ≠ [])

/-- Modelled from the spec's words, for comparison with `exclude_names`:
"parse `excluded_raw` into a set of trimmed, non-empty labels (empty entries
produced by consecutive delimiters or leading/trailing delimiters are
discarded silently)". -/
def termsSpec (raw : PyStr) : List PyStr :=
  ((splitComma raw).map pyStrip).filter (fun x => x ≠ [])

/-- One `{"name": nickname, "count": line_count}` record (line 118 of `main.py`). -/
structure Record where
  name : PyStr
  count : Nat
deriving DecidableEq

/-- Insert a record into an already count-descending list, before the first
entry whose count is not larger.  Auxiliary to `rank`. -/
def insertByCount (r : Record) : List Record → List Record
  | [] => [r]
  | x :: xs => if r.count < x.count then x :: insertByCount r xs else r :: x :: xs

/-- Line 121 of `main.py`: `data.sort(key=lambda x: x["count"], reverse=True)`.
Python's `list.sort` is a stable sort, and with `reverse=True` records with
equal keys still keep their original order; this insertion sort is the unique
stable sort by count descending, hence extensionally equal to it. -/
def rank : List Record → List Record
  | [] => []
  | r :: rs => insertByCount r (rank rs)

/-- Lines 151-161 of `main.py`: `filtered_data = [d for d in data if d["name"] not in exclude_names]`,
then the chart receives `names[::-1]` / `counts[::-1]` (the filtered list reversed). -/
def to_chart_series (ranked : List Record) (raw : PyStr) : List Record :=
  (ranked.filter (fun r => r.name ∉ exclude_names raw)).reverse

/-- Python text-mode universal newlines: `\r\n` and `\r` are translated to `\n`
when a file is read as text. -/
def translateNL : List Char → List Char
  | [] => []
  | '\r' :: '\n' :: rest => '\n' :: translateNL rest
  | '\r' :: rest => '\n' :: translateNL rest
  | c :: rest => c :: translateNL rest

/-- Split a (newline-translated) character list into lines after each `'\n'`,
keeping terminators; a trailing segment without a terminator is still a line.
`acc` holds the current line read so far, reversed. -/
def splitAfterNLAux : List Char → List Char → List (List Char)
  | [], acc => if acc = [] then [] else [acc.reverse]
  | '\n' :: rest, acc => ('\n' :: acc).reverse :: splitAfterNLAux rest []
  | c :: rest, acc => splitAfterNLAux rest (c :: acc)

/-- Python `f.readlines()` on decoded content `s` (text mode, universal newlines). -/
def readlines (s : List Char) : List (List Char) :=
  splitAfterNLAux (translateNL s) []

/-- Lines 110/113 of `main.py`: `line_count = len(f.readlines())`. -/
def countLines (s : List Char) : Nat :=
  (readlines s).length

/-- Number of line terminators in `s`, counting `\r\n` as a single terminator
(the file's line-ending convention).  Spec-side notion. -/
def countTerms : List Char → Nat
  | [] => 0
  | '\r' :: '\n' :: rest => countTerms rest + 1
  | '\r' :: rest => countTerms rest + 1
  | '\n' :: rest => countTerms rest + 1
  | _ :: rest => countTerms rest

/-- Does `s` end with a line terminator? -/
def endsWithTerm (s : List Char) : Bool :=
  match s.getLast? with
  | some c => c = '\n' || c = '\r'
  | none => false

/-- Modelled from the spec's words, for comparison with `countLines`:
"`count` = number of lines in the successfully decoded content (lines are
delimited by the file's line-ending convention; a trailing line without a
terminator still counts)": one line per terminator, plus one trailing
unterminated line when the content is non-empty and does not end with a
terminator. -/
def numLinesSpec (s : List Char) : Nat :=
  countTerms s + (if s ≠ [] ∧ ¬endsWithTerm s then 1 else 0)

/-- A Python exception raised while opening/reading a file:
`UnicodeDecodeError` (which triggers the cp932 retry) or any other error. -/
inductive PyError where
  | decodeError (msg : PyStr)
  | otherError (msg : PyStr)
deriving DecidableEq

/-- The text `str(e)` printed for the exception. -/
def PyError.msg : PyError → PyStr
  | .decodeError m => m
  | .otherError m => m

/-- One candidate file found by `glob`, modelled by its base name together
with the outcome of attempting `open(..., encoding='utf-8')` + `readlines`
and of attempting `open(..., encoding='cp932')` + `readlines`: either the
decoded content or the exception raised. -/
structure SrcFile where
  name : PyStr
  utf8 : Except PyError (List Char)
  cp932 : Except PyError (List Char)

/-- Lines 106-113 of `main.py`: try UTF-8; on `UnicodeDecodeError` (only)
retry with cp932; any other error, or an error of the cp932 retry,
propagates to the outer `except`. -/
def readFileContent (f : SrcFile) : Except PyError (List Char) :=
  match f.utf8 with
  | .ok s => .ok s
  | .error (.decodeError _) => f.cp932
  | .error e => .error e

/-- Split a base name at its last dot: `some (root, ext)` with the dot
dropped, preferring the rightmost dot; `none` when there is no dot. -/
def splitAtLastDot : PyStr → Option (PyStr × PyStr)
  | [] => none
  | c :: rest =>
    match splitAtLastDot rest with
    | some (r, e) => some (c :: r, e)
    | none => if c = '.' then some ([], rest) else none

/-- Line 103 of `main.py`: `nickname = os.path.splitext(filename)[0]`.
Python keeps the whole name when every character before the last dot is
itself a dot (e.g. `.txt` has no extension). -/
def splitextStem (s : PyStr) : PyStr :=
  match splitAtLastDot s with
  | none => s
  | some (r, _) => if r.all (fun c => c = '.') then s else r

/-- Line 115 of `main.py`: `print(f"Error reading {filename}: {e}")`. -/
def diagMsg (f : SrcFile) (e : PyError) : PyStr :=
  "Error reading ".data ++ f.name ++ ": ".data ++ e.msg

/-- The records accumulated by the loop of lines 100-118, together with the
diagnostics printed for skipped files. -/
structure IngestResult where
  data : List Record
  diags : List PyStr
deriving DecidableEq

/-- The per-file loop of lines 100-118 of `main.py`: each file either
contributes a `(nickname, line_count)` record, or is skipped with a printed
diagnostic (`continue`). -/
def ingest : List SrcFile → IngestResult
  | [] => ⟨[], []⟩
  | f :: rest =>
    let r := ingest rest
    match readFileContent f with
    | .ok s => ⟨⟨splitextStem f.name, countLines s⟩ :: r.data, r.diags⟩
    | .error e => ⟨r.data, diagMsg f e :: r.diags⟩

/-- The warning text of line 95 of `main.py` (`target_dir` is `talk_upload`;
the quote marks around the directory name in the original f-string are
omitted here). -/
def noFilesMsg : PyStr :=
  "talk_upload にtxtファイルが見つかりません。".data

/-- The observable outcome of one `load_and_analyze` run: an optional
warning dialog, the ranked data passed to `update_table` (or `none` when the
method returned early without touching the table), the series passed to the
chart (or `none`), and the printed per-file diagnostics. -/
structure AnalyzeOutcome where
  warning : Option PyStr
  table : Option (List Record)
  chart : Option (List Record)
  diags : List PyStr
deriving DecidableEq

/-- Lines 91-125 of `main.py`: if `glob` found no files, show the warning and
return (no table or chart update); otherwise ingest every file, sort the
records by count descending, and update the table with the ranked list and
the chart with the exclusion-filtered, reversed list. -/
def load_and_analyze (files : List SrcFile) (excludeRaw : PyStr) : AnalyzeOutcome :=
  match files with
  | [] => ⟨some noFilesMsg, none, none, []⟩
  | _ :: _ =>
    let r := ingest files
    let ranked := rank r.data
    ⟨none, some ranked, some (to_chart_series ranked excludeRaw), r.diags⟩

/-- Append a character to the last piece of a non-empty list of pieces
(auxiliary, used to describe `splitComma` on `s ++ [c]`). -/
def appendLast (x : Char) : List PyStr → List PyStr
  | [] => [[x]]
  | [p] => [p ++ [x]]
  | p :: ps => p :: appendLast x ps

/-! ### Ranking lemmas -/

theorem insertByCount_perm (r : Record) (l : List Record) :
    (insertByCount r l).Perm (r :: l) := by
  induction l with
  | nil => simp [insertByCount]
  | cons x xs ih =>
    by_cases h : r.count < x.count
    · simp only [insertByCount, if_pos h]
      exact (ih.cons x).trans (List.Perm.swap r x xs)
    · simp only [insertByCount, if_neg h]
      exact List.Perm.refl _

theorem rank_perm (l : List Record) : (rank l).Perm l := by
  induction l with
  | nil => rfl
  | cons r rs ih => exact (insertByCount_perm r (rank rs)).trans (ih.cons r)

theorem rank_length (l : List Record) : (rank l).length = l.length :=
  (rank_perm l).length_eq

theorem insertByCount_pairwise {r : Record} {l : List Record}
    (h : l.Pairwise (fun a b => b.count ≤ a.count)) :
    (insertByCount r l).Pairwise (fun a b => b.count ≤ a.count) := by
  induction l with
  | nil => simp [insertByCount]
  | cons x xs ih =>
    rcases List.pairwise_cons.mp h with ⟨hx, hxs⟩
    by_cases hc : r.count < x.count
    · simp only [insertByCount, if_pos hc]
      refine List.pairwise_cons.mpr ⟨?_, ih hxs⟩
      intro y hy
      rcases List.mem_cons.mp ((insertByCount_perm r xs).mem_iff.mp hy) with rfl | hy'
      · exact le_of_lt hc
      · exact hx y hy'
    · push_neg at hc
      simp only [insertByCount, if_neg (not_lt.mpr hc)]
      refine List.pairwise_cons.mpr ⟨?_, h⟩
      intro y hy
      rcases List.mem_cons.mp hy with rfl | hy'
      · exact hc
      · exact le_trans (hx y hy') hc

theorem rank_pairwise (l : List Record) :
    (rank l).Pairwise (fun a b => b.count ≤ a.count) := by
  induction l with
  | nil => exact List.Pairwise.nil
  | cons r rs ih => exact insertByCount_pairwise ih

theorem insertByCount_filter_of_eq {r : Record} {c : Nat} (h : r.count = c)
    (l : List Record) :
    (insertByCount r l).filter (fun x => x.count == c) =
      r :: l.filter (fun x => x.count == c) := by
  induction l with
  | nil => simp [insertByCount, List.filter, h]
  | cons x xs ih =>
    by_cases hc : r.count < x.count
    · have hx : (x.count == c) = false := by
        subst h
        simp only [beq_eq_false_iff_ne, ne_eq]
        omega
      simp only [insertByCount, if_pos hc, List.filter_cons, hx, Bool.false_eq_true,
        if_neg, ite_false, ih]
    · have hr : (r.count == c) = true := by simp [h]
      simp [insertByCount, if_neg hc, List.filter_cons, hr]

theorem insertByCount_filter_of_ne {r : Record} {c : Nat} (h : r.count ≠ c)
    (l : List Record) :
    (insertByCount r l).filter (fun x => x.count == c) =
      l.filter (fun x => x.count == c) := by
  have hr : (r.count == c) = false := by simpa using h
  induction l with
  | nil => simp [insertByCount, List.filter, hr]
  | cons x xs ih =>
    by_cases hc : r.count < x.count
    · simp only [insertByCount, if_pos hc, List.filter_cons, ih]
    · simp [insertByCount, if_neg hc, List.filter_cons, hr]

theorem rank_filter_count (l : List Record) (c : Nat) :
    (rank l).filter (fun x => x.count == c) = l.filter (fun x => x.count == c) := by
  induction l with
  | nil => rfl
  | cons r rs ih =>
    by_cases h : r.count = c
    · have hr : (r.count == c) = true := by simp [h]
      simp only [rank, insertByCount_filter_of_eq h, ih, List.filter_cons, hr, if_pos]
    · have hr : (r.count == c) = false := by simpa using h
      simp only [rank, insertByCount_filter_of_ne h, ih, List.filter_cons, hr,
        Bool.false_eq_true, if_neg, ite_false]

/-- C1: `rank` returns a sequence of the same length as its input, sorted by
count non-increasing, and stably: for every count value, the subsequence of
records with that count is exactly the subsequence they formed in the input
(file-discovery order), so any two records with equal counts keep their
relative order. -/
theorem C1_rank_length_sorted_stable (l : List Record) :
    (rank l).length = l.length ∧
    (rank l).Pairwise (fun a b => b.count ≤ a.count) ∧
    ∀ c : Nat, (rank l).filter (fun x => x.count == c) =
      l.filter (fun x => x.count == c) :=
  ⟨rank_length l, rank_pairwise l, rank_filter_count l⟩

theorem rank_of_pairwise {l : List Record}
    (h : l.Pairwise (fun a b => b.count ≤ a.count)) : rank l = l := by
  induction l with
  | nil => rfl
  | cons x xs ih =>
    rcases List.pairwise_cons.mp h with ⟨hx, hxs⟩
    rw [rank, ih hxs]
    cases xs with
    | nil => rfl
    | cons y ys =>
      have : ¬x.count < y.count := not_lt.mpr (hx y (List.mem_cons_self y ys))
      simp [insertByCount, this]

/-- C7: `rank` is idempotent — applying it to an already-ranked series
returns a series equal to its input. -/
theorem C7_rank_idempotent (l : List Record) : rank (rank l) = rank l :=
  rank_of_pairwise (rank_pairwise l)

/-! ### Exclusion-string lemmas -/

theorem splitComma_ne_nil (s : PyStr) : splitComma s ≠ [] := by
  cases s with
  | nil => simp [splitComma]
  | cons c rest =>
    by_cases h : c = ','
    · simp [splitComma, h]
    · simp only [splitComma, if_neg h]
      cases splitComma rest <;> simp

theorem comma_not_space : pyIsSpace ',' = false := by decide

theorem ne_comma_of_space {c : Char} (h : pyIsSpace c = true) : c ≠ ',' := by
  intro rfl_h
  subst rfl_h
  simp [pyIsSpace] at h

theorem pyStrip_cons_space {c : Char} (h : pyIsSpace c = true) (s : PyStr) :
    pyStrip (c :: s) = pyStrip s := by
  simp [pyStrip, List.dropWhile_cons, h]

theorem pyStrip_concat_space {c : Char} (h : pyIsSpace c = true) (s : PyStr) :
    pyStrip (s ++ [c]) = pyStrip s := by
  induction s with
  | nil => simp [pyStrip, List.dropWhile_cons, h]
  | cons d s ih =>
    by_cases hd : pyIsSpace d
    · rw [List.cons_append, pyStrip_cons_space hd, ih, pyStrip_cons_space hd]
    · have h1 : ∀ t, pyStrip (d :: t) = (d :: t).rdropWhile pyIsSpace := by
        intro t
        simp [pyStrip, List.dropWhile_cons, hd]
      rw [List.cons_append, h1, h1, ← List.cons_append]
      exact List.rdropWhile_concat_pos _ _ _ h

theorem mapStrip_splitComma_cons_space {c : Char} (h : pyIsSpace c = true)
    (s : PyStr) :
    (splitComma (c :: s)).map pyStrip = (splitComma s).map pyStrip := by
  have hc : c ≠ ',' := ne_comma_of_space h
  cases hs : splitComma s with
  | nil => exact absurd hs (splitComma_ne_nil s)
  | cons p ps =>
    simp only [splitComma, if_neg hc, hs, List.map_cons, pyStrip_cons_space h]

theorem mapStrip_splitComma_dropWhile (s : PyStr) :
    (splitComma (s.dropWhile pyIsSpace)).map pyStrip = (splitComma s).map pyStrip := by
  induction s with
  | nil => rfl
  | cons c s ih =>
    by_cases h : pyIsSpace c
    · rw [List.dropWhile_cons_of_pos h, ih, mapStrip_splitComma_cons_space h]
    · rw [List.dropWhile_cons_of_neg h]

theorem appendLast_pair (x : Char) (p : PyStr) : appendLast x [p] = [p ++ [x]] := by
  rfl

theorem appendLast_cons₂ (x : Char) (p q : PyStr) (qs : List PyStr) :
    appendLast x (p :: q :: qs) = p :: appendLast x (q :: qs) := by
  rfl

theorem splitComma_cons_comma (s : PyStr) :
    splitComma (',' :: s) = [] :: splitComma s := by
  simp [splitComma]

theorem splitComma_cons_ne {c : Char} (h : ¬c = ',') {s : PyStr} {p : PyStr}
    {ps : List PyStr} (hs : splitComma s = p :: ps) :
    splitComma (c :: s) = (c :: p) :: ps := by
  simp only [splitComma, if_neg h, hs]

theorem splitComma_concat (c : Char) (s : PyStr) :
    splitComma (s ++ [c]) =
      if c = ',' then splitComma s ++ [[]] else appendLast c (splitComma s) := by
  induction s with
  | nil =>
    by_cases h : c = ','
    · subst h
      rfl
    · rw [if_neg h, List.nil_append]
      have : splitComma [c] = [[c]] := by
        simp only [splitComma, if_neg h]
      rw [this]
      rfl
  | cons d s ih =>
    rw [List.cons_append]
    by_cases hd : d = ','
    · subst hd
      rw [splitComma_cons_comma, ih, splitComma_cons_comma]
      by_cases h : c = ','
      · rw [if_pos h, if_pos h, List.cons_append]
      · rw [if_neg h, if_neg h]
        cases hs : splitComma s with
        | nil => exact absurd hs (splitComma_ne_nil s)
        | cons p ps => rfl
    · cases hs : splitComma s with
      | nil => exact absurd hs (splitComma_ne_nil s)
      | cons p ps =>
        by_cases h : c = ','
        · rw [if_pos h] at ih
          rw [hs, List.cons_append] at ih
          rw [splitComma_cons_ne hd ih, if_pos h, splitComma_cons_ne hd hs,
            List.cons_append]
        · rw [if_neg h] at ih
          rw [hs] at ih
          rw [if_neg h, splitComma_cons_ne hd hs]
          cases ps with
          | nil =>
            have ih2 : splitComma (s ++ [c]) = (p ++ [c]) :: [] := by
              rw [ih, appendLast_pair]
            rw [splitComma_cons_ne hd ih2]
            rw [appendLast_pair, List.cons_append]
          | cons q qs =>
            have ih2 : splitComma (s ++ [c]) = p :: appendLast c (q :: qs) := by
              rw [ih, appendLast_cons₂]
            rw [splitComma_cons_ne hd ih2]
            rw [appendLast_cons₂]

theorem mapStrip_appendLast_space {c : Char} (h : pyIsSpace c = true) :
    ∀ L : List PyStr, L ≠ [] → (appendLast c L).map pyStrip = L.map pyStrip := by
  intro L
  induction L with
  | nil => intro hL; exact absurd rfl hL
  | cons p ps ih =>
    intro _
    cases ps with
    | nil => simp [appendLast, pyStrip_concat_space h]
    | cons q qs =>
      simp only [appendLast, List.map_cons]
      rw [ih (by simp)]
      simp

theorem mapStrip_splitComma_rdropWhile (s : PyStr) :
    (splitComma (s.rdropWhile pyIsSpace)).map pyStrip = (splitComma s).map pyStrip := by
  induction s using List.reverseRecOn with
  | nil => rfl
  | append_singleton xs x ih =>
    by_cases h : pyIsSpace x
    · rw [List.rdropWhile_concat_pos _ _ _ h, ih, splitComma_concat,
        if_neg (ne_comma_of_space h),
        mapStrip_appendLast_space h _ (splitComma_ne_nil xs)]
    · rw [List.rdropWhile_concat_neg _ _ _ h]

theorem mapStrip_splitComma_pyStrip (s : PyStr) :
    (splitComma (pyStrip s)).map pyStrip = (splitComma s).map pyStrip := by
  rw [pyStrip, mapStrip_splitComma_rdropWhile, mapStrip_splitComma_dropWhile]

/-- The code's parse of the exclusion string (outer `strip`, the emptiness
guard, then split/strip/filter) agrees with the spec's parse (split on
commas, trim each term, drop empties). -/
theorem exclude_names_eq_termsSpec (raw : PyStr) :
    exclude_names raw = termsSpec raw := by
  unfold exclude_names termsSpec
  by_cases h : pyStrip raw = []
  · rw [if_pos h]
    have h2 : ((splitComma raw).map pyStrip).filter (fun x => x ≠ []) =
        ((splitComma (pyStrip raw)).map pyStrip).filter (fun x => x ≠ []) := by
      rw [mapStrip_splitComma_pyStrip]
    rw [h2, h]
    rfl
  · rw [if_neg h, mapStrip_splitComma_pyStrip]

/-- C2: `to_chart_series` parses the raw exclusion string into the trimmed,
non-empty comma-separated terms (empty entries are discarded silently), and
keeps exactly the records whose label exactly matches no term: in
particular no returned record's label is among the trimmed terms of the
exclusion string, and any record whose label is excluded is absent from the
result. -/
theorem C2_exclusion_filter (ranked : List Record) (raw : PyStr) :
    exclude_names raw = termsSpec raw ∧
    to_chart_series ranked raw =
      (ranked.filter (fun r => r.name ∉ termsSpec raw)).reverse ∧
    (∀ r ∈ to_chart_series ranked raw, r.name ∉ termsSpec raw) ∧
    (∀ r : Record, r.name ∈ termsSpec raw → r ∉ to_chart_series ranked raw) := by
  have he := exclude_names_eq_termsSpec raw
  have hrepr : to_chart_series ranked raw =
      (ranked.filter (fun r => r.name ∉ termsSpec raw)).reverse := by
    simp only [to_chart_series, he]
  have hmem : ∀ r ∈ to_chart_series ranked raw, r.name ∉ termsSpec raw := by
    intro r hr
    rw [hrepr, List.mem_reverse, List.mem_filter] at hr
    simpa using hr.2
  refine ⟨he, hrepr, hmem, ?_⟩
  intro r hname hr
  exact hmem r hr hname

/-- C2 witness: with exclusion string `" bob ,x"`, the record labelled
`bob` is not in the chart series. -/
theorem C2_exclusion_filter_witness :
    (⟨"bob".data, 10⟩ : Record) ∉
      to_chart_series [⟨"bob".data, 10⟩, ⟨"alice".data, 3⟩] " bob ,x".data :=
  (C2_exclusion_filter [⟨"bob".data, 10⟩, ⟨"alice".data, 3⟩]
    " bob ,x".data).2.2.2 ⟨"bob".data, 10⟩ (by decide)

/-- C3: with an empty exclusion string, `to_chart_series` is exactly the
ranked input reversed. -/
theorem C3_empty_exclusion_reverse (ranked : List Record) :
    to_chart_series ranked [] = ranked.reverse := by
  have h2 : ranked.filter (fun r => r.name ∉ exclude_names []) = ranked := by
    apply List.filter_eq_self.mpr
    intro a _
    have h : exclude_names [] = [] := rfl
    simp [h]
  rw [to_chart_series, h2]

theorem pyStrip_sublist (s : PyStr) : List.Sublist (pyStrip s) s := by
  rw [pyStrip, List.rdropWhile]
  have h := (List.dropWhile_sublist (l := (s.dropWhile pyIsSpace).reverse)
    (p := pyIsSpace)).reverse
  rw [List.reverse_reverse] at h
  exact h.trans (List.dropWhile_sublist pyIsSpace)

theorem splitComma_pieces_no_comma :
    ∀ {s p : PyStr}, p ∈ splitComma s → ',' ∉ p := by
  intro s
  induction s with
  | nil =>
    intro p hp
    rw [show splitComma [] = [[]] from rfl, List.mem_singleton] at hp
    subst hp
    simp
  | cons c rest ih =>
    intro p hp
    by_cases hc : c = ','
    · subst hc
      rw [splitComma_cons_comma, List.mem_cons] at hp
      rcases hp with rfl | hp
      · simp
      · exact ih hp
    · cases hs : splitComma rest with
      | nil => exact absurd hs (splitComma_ne_nil rest)
      | cons q qs =>
        rw [splitComma_cons_ne hc hs, List.mem_cons] at hp
        rcases hp with rfl | hp
        · intro hmem
          rcases List.mem_cons.mp hmem with h1 | h1
          · exact hc h1.symm
          · exact ih (hs ▸ List.mem_cons_self q qs) h1
        · exact ih (hs ▸ List.mem_cons_of_mem q hp)

theorem mem_exclude_names_no_comma {raw x : PyStr}
    (hx : x ∈ exclude_names raw) : ',' ∉ x := by
  rw [exclude_names] at hx
  by_cases h : pyStrip raw = []
  · rw [if_pos h] at hx
    exact absurd hx (List.not_mem_nil x)
  · rw [if_neg h] at hx
    have hx2 := List.mem_of_mem_filter hx
    rcases List.mem_map.mp hx2 with ⟨p, hp, rfl⟩
    intro hcomma
    exact splitComma_pieces_no_comma hp ((pyStrip_sublist p).subset hcomma)

/-- C10: a record whose label contains a comma survives `to_chart_series`
for every exclusion string, because no trimmed comma-split term can contain
a comma. -/
theorem C10_comma_label_never_excluded (ranked : List Record) (raw : PyStr)
    (r : Record) (hr : r ∈ ranked) (hc : ',' ∈ r.name) :
    r ∈ to_chart_series ranked raw := by
  rw [to_chart_series, List.mem_reverse, List.mem_filter]
  refine ⟨hr, ?_⟩
  simp only [decide_eq_true_eq]
  intro hmem
  exact mem_exclude_names_no_comma hmem hc

/-- C10 witness: the record labelled `a,b` survives even when the exclusion
string is `a,b` itself (it splits into terms `a` and `b`). -/
theorem C10_comma_label_never_excluded_witness :
    (⟨"a,b".data, 7⟩ : Record) ∈ to_chart_series [⟨"a,b".data, 7⟩] "a,b".data :=
  C10_comma_label_never_excluded [⟨"a,b".data, 7⟩] "a,b".data
    ⟨"a,b".data, 7⟩ (by decide) (by decide)

/-! ### Line-counting lemmas -/

theorem translateNL_nil : translateNL [] = [] := rfl

theorem translateNL_rn (rest : List Char) :
    translateNL ('\r' :: '\n' :: rest) = '\n' :: translateNL rest := rfl

theorem translateNL_r {rest : List Char} (h : ∀ r, rest = '\n' :: r → False) :
    translateNL ('\r' :: rest) = '\n' :: translateNL rest := by
  rw [translateNL.eq_def]
  cases rest with
  | nil => rfl
  | cons d r2 =>
    by_cases hd : d = '\n'
    · exact absurd (by rw [hd]) (fun hh => h r2 hh)
    · simp [hd]

theorem translateNL_other {c : Char} (h : ¬c = '\r') (rest : List Char) :
    translateNL (c :: rest) = c :: translateNL rest := by
  rw [translateNL.eq_def]
  cases rest with
  | nil => simp [h]
  | cons d r2 => simp [h]

theorem countTerms_rn (rest : List Char) :
    countTerms ('\r' :: '\n' :: rest) = countTerms rest + 1 := rfl

theorem countTerms_r {rest : List Char} (h : ∀ r, rest = '\n' :: r → False) :
    countTerms ('\r' :: rest) = countTerms rest + 1 := by
  rw [countTerms.eq_def]
  cases rest with
  | nil => rfl
  | cons d r2 =>
    by_cases hd : d = '\n'
    · exact absurd (by rw [hd]) (fun hh => h r2 hh)
    · simp [hd]

theorem countTerms_n (rest : List Char) :
    countTerms ('\n' :: rest) = countTerms rest + 1 := rfl

theorem countTerms_other {c : Char} (h1 : ¬c = '\r') (h2 : ¬c = '\n')
    (rest : List Char) : countTerms (c :: rest) = countTerms rest := by
  rw [countTerms.eq_def]
  cases rest with
  | nil => simp [h1, h2]
  | cons d r2 => simp [h1, h2]

theorem splitAfterNLAux_nil (acc : List Char) :
    splitAfterNLAux [] acc = if acc = [] then [] else [acc.reverse] := rfl

theorem splitAfterNLAux_nl (rest acc : List Char) :
    splitAfterNLAux ('\n' :: rest) acc =
      ('\n' :: acc).reverse :: splitAfterNLAux rest [] := rfl

theorem splitAfterNLAux_other {c : Char} (h : ¬c = '\n') (rest acc : List Char) :
    splitAfterNLAux (c :: rest) acc = splitAfterNLAux rest (c :: acc) := by
  rw [splitAfterNLAux.eq_def]
  simp [h]

theorem splitAfterNLAux_length (cs : List Char) : ∀ acc : List Char,
    (splitAfterNLAux cs acc).length =
      cs.count '\n' +
        (if cs = [] then (if acc = [] then 0 else 1)
         else if cs.getLast? = some '\n' then 0 else 1) := by
  induction cs with
  | nil =>
    intro acc
    by_cases h : acc = [] <;> simp [splitAfterNLAux_nil, h]
  | cons c rest ih =>
    intro acc
    by_cases hc : c = '\n'
    · subst hc
      rw [splitAfterNLAux_nl]
      cases rest with
      | nil => simp [splitAfterNLAux_nil]
      | cons r rs =>
        have := ih []
        simp only [List.length_cons, this, List.count_cons, List.getLast?_cons_cons]
        simp only [if_neg (List.cons_ne_nil r rs)]
        by_cases hl : (r :: rs).getLast? = some '\n' <;> simp [hl]
    · rw [splitAfterNLAux_other hc]
      cases rest with
      | nil =>
        have : some c ≠ some '\n' := by simpa using hc
        simp [splitAfterNLAux_nil, List.count_cons, hc, this]
      | cons r rs =>
        have := ih (c :: acc)
        simp only [this, List.count_cons, List.getLast?_cons_cons,
          if_neg (List.cons_ne_nil r rs), if_neg (List.cons_ne_nil c acc)]
        simp [hc]

theorem translateNL_count (s : List Char) :
    (translateNL s).count '\n' = countTerms s := by
  induction s using translateNL.induct with
  | case1 => rfl
  | case2 rest ih =>
    rw [translateNL_rn, countTerms_rn, List.count_cons, ih]
    simp
  | case3 rest h ih =>
    rw [translateNL_r h, countTerms_r h, List.count_cons, ih]
    simp
  | case4 c rest h1 h2 ih =>
    rw [translateNL_other (fun hc => h2 hc), List.count_cons, ih]
    by_cases hn : c = '\n'
    · subst hn
      rw [countTerms_n]
      simp
    · rw [countTerms_other (fun hc => h2 hc) hn]
      simp [hn]

theorem translateNL_eq_nil_iff (s : List Char) :
    translateNL s = [] ↔ s = [] := by
  induction s using translateNL.induct with
  | case1 => exact Iff.rfl
  | case2 rest ih => rw [translateNL_rn]; simp
  | case3 rest h ih => rw [translateNL_r h]; simp
  | case4 c rest h1 h2 ih => rw [translateNL_other (fun hc => h2 hc)]; simp

theorem getLast?_cons_of_ne_nil {a : Char} {l : List Char} (h : l ≠ []) :
    (a :: l).getLast? = l.getLast? := by
  cases l with
  | nil => exact absurd rfl h
  | cons b t => exact List.getLast?_cons_cons

theorem endsWithTerm_cons_of_ne_nil {a : Char} {l : List Char} (h : l ≠ []) :
    endsWithTerm (a :: l) = endsWithTerm l := by
  rw [endsWithTerm, endsWithTerm, getLast?_cons_of_ne_nil h]

theorem endsWithTerm_singleton (c : Char) :
    endsWithTerm [c] = (decide (c = '\n') || decide (c = '\r')) := rfl

theorem translateNL_getLast (s : List Char) :
    (translateNL s).getLast? = some '\n' ↔ endsWithTerm s = true := by
  induction s using translateNL.induct with
  | case1 => rw [translateNL_nil]; simp [endsWithTerm]
  | case2 rest ih =>
    rw [translateNL_rn]
    by_cases hr : rest = []
    · subst hr
      rw [translateNL_nil]
      simp [endsWithTerm]
    · have ht : translateNL rest ≠ [] := by
        rw [ne_eq, translateNL_eq_nil_iff]; exact hr
      rw [getLast?_cons_of_ne_nil ht, ih,
        endsWithTerm_cons_of_ne_nil (List.cons_ne_nil '\n' rest),
        endsWithTerm_cons_of_ne_nil hr]
  | case3 rest h ih =>
    rw [translateNL_r h]
    by_cases hr : rest = []
    · subst hr
      rw [translateNL_nil]
      simp [endsWithTerm]
    · have ht : translateNL rest ≠ [] := by
        rw [ne_eq, translateNL_eq_nil_iff]; exact hr
      rw [getLast?_cons_of_ne_nil ht, ih, endsWithTerm_cons_of_ne_nil hr]
  | case4 c rest h1 h2 ih =>
    rw [translateNL_other (fun hc => h2 hc)]
    by_cases hr : rest = []
    · subst hr
      rw [translateNL_nil, endsWithTerm_singleton]
      have hcr : ¬c = '\r' := fun hc => h2 hc
      simp [hcr]
    · have ht : translateNL rest ≠ [] := by
        rw [ne_eq, translateNL_eq_nil_iff]; exact hr
      rw [getLast?_cons_of_ne_nil ht, ih, endsWithTerm_cons_of_ne_nil hr]

/-- The code's line count (`len(f.readlines())`) equals the spec's: one line
per terminator of the file's line-ending convention, plus a trailing
unterminated line. -/
theorem countLines_eq_numLinesSpec (s : List Char) :
    countLines s = numLinesSpec s := by
  rw [countLines, readlines, splitAfterNLAux_length, translateNL_count,
    numLinesSpec]
  by_cases hs : s = []
  · subst hs
    rw [translateNL_nil]
    simp
  · have ht : ¬translateNL s = [] := by
      rw [translateNL_eq_nil_iff]; exact hs
    rw [if_neg ht]
    by_cases he : endsWithTerm s = true
    · rw [if_pos ((translateNL_getLast s).mpr he)]
      simp [hs, he]
    · rw [if_neg (fun hh => he ((translateNL_getLast s).mp hh))]
      simp [hs, he]

/-! ### Ingestion lemmas -/

theorem ingest_cons_ok {f : SrcFile} {s : List Char}
    (h : readFileContent f = .ok s) (rest : List SrcFile) :
    ingest (f :: rest) =
      ⟨⟨splitextStem f.name, countLines s⟩ :: (ingest rest).data,
        (ingest rest).diags⟩ := by
  simp only [ingest, h]

theorem ingest_cons_err {f : SrcFile} {e : PyError}
    (h : readFileContent f = .error e) (rest : List SrcFile) :
    ingest (f :: rest) =
      ⟨(ingest rest).data, diagMsg f e :: (ingest rest).diags⟩ := by
  simp only [ingest, h]

theorem ingest_append_data (a b : List SrcFile) :
    (ingest (a ++ b)).data = (ingest a).data ++ (ingest b).data := by
  induction a with
  | nil => rfl
  | cons f a ih =>
    rw [List.cons_append]
    cases hf : readFileContent f with
    | ok s => rw [ingest_cons_ok hf, ingest_cons_ok hf, List.cons_append]; simp [ih]
    | error e => rw [ingest_cons_err hf, ingest_cons_err hf]; simp [ih]

theorem ingest_append_diags (a b : List SrcFile) :
    (ingest (a ++ b)).diags = (ingest a).diags ++ (ingest b).diags := by
  induction a with
  | nil => rfl
  | cons f a ih =>
    rw [List.cons_append]
    cases hf : readFileContent f with
    | ok s => rw [ingest_cons_ok hf, ingest_cons_ok hf]; simp [ih]
    | error e => rw [ingest_cons_err hf, ingest_cons_err hf, List.cons_append]; simp [ih]

theorem splitAtLastDot_eq {s r ex : PyStr}
    (h : splitAtLastDot s = some (r, ex)) : s = r ++ '.' :: ex := by
  induction s generalizing r ex with
  | nil => exact absurd h (by simp [splitAtLastDot])
  | cons c rest ih =>
    cases h2 : splitAtLastDot rest with
    | some pr =>
      obtain ⟨r0, e0⟩ := pr
      simp only [splitAtLastDot, h2, Option.some.injEq, Prod.mk.injEq] at h
      obtain ⟨hr, he⟩ := h
      subst hr
      subst he
      rw [ih h2, List.cons_append]
    | none =>
      simp only [splitAtLastDot, h2] at h
      by_cases hc : c = '.'
      · rw [if_pos hc] at h
        simp only [Option.some.injEq, Prod.mk.injEq] at h
        obtain ⟨hr, he⟩ := h
        subst hr
        subst he
        rw [hc, List.nil_append]
      · rw [if_neg hc] at h
        exact absurd h (by simp)

theorem splitextStem_sublist (s : PyStr) :
    List.Sublist (splitextStem s) s := by
  cases h : splitAtLastDot s with
  | none =>
    simp only [splitextStem, h]
    exact List.Sublist.refl s
  | some pr =>
    obtain ⟨r, ex⟩ := pr
    simp only [splitextStem, h]
    by_cases hall : r.all (fun c => c = '.')
    · rw [if_pos hall]
    · rw [if_neg hall, splitAtLastDot_eq h]
      exact List.sublist_append_left r ('.' :: ex)

theorem stem_sublist_diagMsg (f : SrcFile) (e : PyError) :
    List.Sublist (splitextStem f.name) (diagMsg f e) := by
  rw [diagMsg]
  have h1 : List.Sublist f.name ("Error reading ".data ++ f.name) :=
    List.sublist_append_right "Error reading ".data f.name
  have h2 : List.Sublist ("Error reading ".data ++ f.name)
      ("Error reading ".data ++ f.name ++ ": ".data) :=
    List.sublist_append_left _ _
  have h3 : List.Sublist ("Error reading ".data ++ f.name ++ ": ".data)
      ("Error reading ".data ++ f.name ++ ": ".data ++ e.msg) :=
    List.sublist_append_left _ _
  exact ((splitextStem_sublist f.name).trans h1).trans (h2.trans h3)

theorem msg_sublist_diagMsg (f : SrcFile) (e : PyError) :
    List.Sublist e.msg (diagMsg f e) := by
  rw [diagMsg]
  exact List.sublist_append_right _ e.msg

/-- C4: a file whose read fails (undecodable under both encodings, or any
other open/read error) is skipped entirely — the records are exactly those
of the other files — while a diagnostic containing the file's label and the
underlying cause is emitted, and every other file is still processed. -/
theorem C4_unreadable_file_skipped (pre post : List SrcFile) (f : SrcFile)
    (e : PyError) (h : readFileContent f = .error e) :
    (ingest (pre ++ f :: post)).data = (ingest pre).data ++ (ingest post).data ∧
    (ingest (pre ++ f :: post)).diags =
      (ingest pre).diags ++ diagMsg f e :: (ingest post).diags ∧
    List.Sublist (splitextStem f.name) (diagMsg f e) ∧
    List.Sublist e.msg (diagMsg f e) := by
  refine ⟨?_, ?_, stem_sublist_diagMsg f e, msg_sublist_diagMsg f e⟩
  · rw [ingest_append_data, ingest_cons_err h]
  · rw [ingest_append_diags, ingest_cons_err h]

/-- C4 witness: `carol.txt` fails both decodings between two good files;
its record is absent, its diagnostic present, the rest still counted. -/
theorem C4_unreadable_file_skipped_witness :
    (ingest ([⟨"alice.txt".data, Except.ok "hi\n".data, Except.ok []⟩] ++
        ⟨"carol.txt".data, Except.error (PyError.decodeError "bad utf-8".data),
          Except.error (PyError.decodeError "bad cp932".data)⟩ ::
        [⟨"bob.txt".data, Except.ok "yo".data, Except.ok []⟩])).data =
      (ingest [⟨"alice.txt".data, Except.ok "hi\n".data, Except.ok []⟩]).data ++
        (ingest [⟨"bob.txt".data, Except.ok "yo".data, Except.ok []⟩]).data ∧
    (ingest ([⟨"alice.txt".data, Except.ok "hi\n".data, Except.ok []⟩] ++
        ⟨"carol.txt".data, Except.error (PyError.decodeError "bad utf-8".data),
          Except.error (PyError.decodeError "bad cp932".data)⟩ ::
        [⟨"bob.txt".data, Except.ok "yo".data, Except.ok []⟩])).diags =
      (ingest [⟨"alice.txt".data, Except.ok "hi\n".data, Except.ok []⟩]).diags ++
        diagMsg ⟨"carol.txt".data,
            Except.error (PyError.decodeError "bad utf-8".data),
            Except.error (PyError.decodeError "bad cp932".data)⟩
          (PyError.decodeError "bad cp932".data) ::
        (ingest [⟨"bob.txt".data, Except.ok "yo".data, Except.ok []⟩]).diags ∧
    List.Sublist
      (splitextStem ("carol.txt".data))
      (diagMsg ⟨"carol.txt".data,
          Except.error (PyError.decodeError "bad utf-8".data),
          Except.error (PyError.decodeError "bad cp932".data)⟩
        (PyError.decodeError "bad cp932".data)) ∧
    List.Sublist ((PyError.decodeError "bad cp932".data).msg)
      (diagMsg ⟨"carol.txt".data,
          Except.error (PyError.decodeError "bad utf-8".data),
          Except.error (PyError.decodeError "bad cp932".data)⟩
        (PyError.decodeError "bad cp932".data)) :=
  C4_unreadable_file_skipped
    [⟨"alice.txt".data, Except.ok "hi\n".data, Except.ok []⟩]
    [⟨"bob.txt".data, Except.ok "yo".data, Except.ok []⟩]
    ⟨"carol.txt".data, Except.error (PyError.decodeError "bad utf-8".data),
      Except.error (PyError.decodeError "bad cp932".data)⟩
    (PyError.decodeError "bad cp932".data) rfl

/-- C5: a file whose content fails UTF-8 decoding but decodes under cp932 is
still counted — its record, with the line count of the cp932-decoded
content, is in the result. -/
theorem C5_cp932_fallback_counted (pre post : List SrcFile) (f : SrcFile)
    (m : PyStr) (s : List Char) (h1 : f.utf8 = .error (.decodeError m))
    (h2 : f.cp932 = .ok s) :
    (⟨splitextStem f.name, countLines s⟩ : Record) ∈
      (ingest (pre ++ f :: post)).data := by
  have hr : readFileContent f = .ok s := by
    rw [readFileContent.eq_def, h1]
    exact h2
  rw [ingest_append_data, ingest_cons_ok hr]
  exact List.mem_append_right _ (List.mem_cons_self _ _)

/-- C5 witness: a cp932-only file with two lines is counted. -/
theorem C5_cp932_fallback_counted_witness :
    (⟨splitextStem "legacy.txt".data, countLines "one\ntwo".data⟩ : Record) ∈
      (ingest ([] ++ ⟨"legacy.txt".data,
        Except.error (PyError.decodeError "bad utf-8".data),
        Except.ok "one\ntwo".data⟩ :: [])).data :=
  C5_cp932_fallback_counted [] []
    ⟨"legacy.txt".data, Except.error (PyError.decodeError "bad utf-8".data),
      Except.ok "one\ntwo".data⟩
    "bad utf-8".data "one\ntwo".data rfl rfl

/-- C6: with no `.txt` files found, `load_and_analyze` shows the
"no files found" warning, performs no table and no chart update, and the
ingested record set is empty. -/
theorem C6_no_files_notice (raw : PyStr) :
    load_and_analyze [] raw = ⟨some noFilesMsg, none, none, []⟩ ∧
    (ingest []).data = [] :=
  ⟨rfl, rfl⟩

/-- C8: every successfully decoded file contributes a record whose count is
`len(readlines())` of the decoded content, and that count equals the spec's
line count: one line per terminator plus a trailing line without one. -/
theorem C8_count_is_line_count (pre post : List SrcFile) (f : SrcFile)
    (s : List Char) (h : readFileContent f = .ok s) :
    (⟨splitextStem f.name, countLines s⟩ : Record) ∈
      (ingest (pre ++ f :: post)).data ∧
    countLines s = numLinesSpec s := by
  constructor
  · rw [ingest_append_data, ingest_cons_ok h]
    exact List.mem_append_right _ (List.mem_cons_self _ _)
  · exact countLines_eq_numLinesSpec s

/-- C8 witness: a file whose decoded content is `a\nb` (trailing line
unterminated) yields count 2 = spec line count. -/
theorem C8_count_is_line_count_witness :
    ((⟨splitextStem "alice.txt".data, countLines "a\nb".data⟩ : Record) ∈
      (ingest ([] ++ ⟨"alice.txt".data, Except.ok "a\nb".data,
        Except.ok []⟩ :: [])).data ∧
    countLines "a\nb".data = numLinesSpec "a\nb".data) :=
  C8_count_is_line_count [] []
    ⟨"alice.txt".data, Except.ok "a\nb".data, Except.ok []⟩ "a\nb".data rfl

/-- C9: an empty (zero-byte) file decodes as the empty string, so it is not
skipped: it contributes a record with count 0, and in any ranked output
every zero-count entry comes after every positive-count entry. -/
theorem C9_empty_file_counted_zero (pre post : List SrcFile) (f : SrcFile)
    (h : f.utf8 = .ok []) :
    (⟨splitextStem f.name, 0⟩ : Record) ∈ (ingest (pre ++ f :: post)).data ∧
    ∀ (l : List Record) (i j : Fin (rank l).length),
      ((rank l).get i).count = 0 → 0 < ((rank l).get j).count →
      (j : Nat) < (i : Nat) := by
  constructor
  · have hr : readFileContent f = .ok [] := by
      rw [readFileContent.eq_def, h]
    rw [ingest_append_data, ingest_cons_ok hr]
    exact List.mem_append_right _ (List.mem_cons_self _ _)
  · intro l i j hi hj
    have hp := List.pairwise_iff_get.mp (rank_pairwise l)
    rcases lt_trichotomy (i : Nat) (j : Nat) with h1 | h1 | h1
    · have h2 := hp i j (Fin.lt_def.mpr h1)
      omega
    · have h2 : i = j := Fin.ext h1
      subst h2
      omega
    · exact h1

/-- C9 witness: an empty `empty.txt` produces the record `(empty, 0)`. -/
theorem C9_empty_file_counted_zero_witness :
    (⟨splitextStem "empty.txt".data, 0⟩ : Record) ∈
      (ingest ([] ++ ⟨"empty.txt".data, Except.ok [], Except.ok []⟩ :: [])).data :=
  (C9_empty_file_counted_zero [] []
    ⟨"empty.txt".data, Except.ok [], Except.ok []⟩ rfl).1

end LineTalk
